import Mathlib

set_option maxHeartbeats 1000000

/-!
Verification of the Deutsch–Jozsa "race" program: an oracle object with a
query counter, a classical brute-force solver, a quantum single-query solver
(simulated by explicit state-vector evolution), and a race harness.

The quantum circuit built by the source (X and H on the ancilla qubit `n`,
H on every input qubit, the oracle's CX gates, H on every input qubit again,
measurement of the input qubits) is embedded as linear evolution of an
integer-valued amplitude vector indexed by `(Fin n → Bool) × Bool`
(input-qubit assignment, ancilla bit).  Each Hadamard application is kept
unnormalized (the true amplitude carries an extra factor `(1/√2)` per H
gate), so with `2*n+1` H gates in the circuit the measurement probability
of an input pattern `y` is `(c (y,false)^2 + c (y,true)^2) / 2^(2*n+1)`.
-/

/-- The oracle object: number of input bits `n`, the oracle type string and the
query counter.  Mirrors class `Oracle` of the source. -/
structure Oracle where
  n : ℕ
  type : String
  call_count : ℕ
  deriving DecidableEq

/-- `Oracle.__init__`: stores the configuration and a zero counter.  The source
constructor performs no validation of `n` or of the type string. -/
def Oracle.init (n : ℕ) (t : String) : Oracle := ⟨n, t, 0⟩

/-- The hidden function stored at construction: for type `"balanced"` the
exclusive-or of the first two entries of the input sequence, for any other
type the constant `0`.  `none` models the `IndexError` a balanced query
raises on an input with fewer than two entries. -/
def hidden_function (t : String) (x : List Bool) : Option ℕ :=
  if t = "balanced" then
    match x with
    | a :: b :: _ => some (Nat.xor (if a then 1 else 0) (if b then 1 else 0))
    | _ => none
  else some 0

/-- `Oracle.query_classical`: increments the counter, then evaluates the hidden
function on the input bits.  The source performs no length validation. -/
def Oracle.query_classical (o : Oracle) (x : List Bool) : Oracle × Option ℕ :=
  ({ o with call_count := o.call_count + 1 }, hidden_function o.type x)

/-- Amplitude vector of the `n+1`-qubit register: input qubits `0..n-1` as a
function `Fin n → Bool`, ancilla qubit `n` as the extra `Bool`. -/
abbrev QState (n : ℕ) := ((Fin n → Bool) × Bool) → ℤ

/-- The all-zeros computational basis state the simulator starts from. -/
def initState (n : ℕ) : QState n :=
  fun p => if p.1 = (fun _ => false) ∧ p.2 = false then 1 else 0

/-- `qc.x(n)`: bit flip on the ancilla qubit. -/
def applyXanc (n : ℕ) (v : QState n) : QState n := fun p => v (p.1, !p.2)

/-- `qc.h(n)`: unnormalized Hadamard on the ancilla qubit. -/
def applyHanc (n : ℕ) (v : QState n) : QState n :=
  fun p => v (p.1, false) + (if p.2 then -1 else 1) * v (p.1, true)

/-- `qc.h(i)`: unnormalized Hadamard on input qubit `q`. -/
def applyHin (n : ℕ) (q : Fin n) (v : QState n) : QState n :=
  fun p => v (Function.update p.1 q false, p.2)
    + (if p.1 q then -1 else 1) * v (Function.update p.1 q true, p.2)

/-- `qc.cx(q, n)`: controlled bit-flip from input qubit `q` onto the ancilla,
a permutation of basis labels. -/
def applyCXanc (n : ℕ) (q : Fin n) (v : QState n) : QState n :=
  fun p => v (p.1, xor p.2 (p.1 q))

/-- `for i in range(n): qc.h(i)`: Hadamard on every input qubit in order. -/
def hadamardInputs (n : ℕ) (v : QState n) : QState n :=
  (List.finRange n).foldl (fun w q => applyHin n q w) v

/-- `Oracle.get_quantum_circuit`: increments the counter by one and returns the
oracle circuit: for `"balanced"` the two gates `cx(0,n); cx(1,n)` (which the
circuit library rejects when `n < 2`, modelled by `none`), otherwise the empty
circuit. -/
def Oracle.get_quantum_circuit (o : Oracle) :
    Oracle × Option (QState o.n → QState o.n) :=
  ({ o with call_count := o.call_count + 1 },
    if o.type = "balanced" then
      if h : 2 ≤ o.n then
        some (fun v => applyCXanc o.n ⟨1, h⟩ (applyCXanc o.n ⟨0, by omega⟩ v))
      else none
    else some (fun v => v))

/-- The full Deutsch–Jozsa circuit of `solve_quantum` around a given oracle
circuit `g`: X and H on the ancilla, H on all inputs, the oracle, H on all
inputs again. -/
def djPipeline (n : ℕ) (g : QState n → QState n) : QState n :=
  hadamardInputs n (g (hadamardInputs n (applyHanc n (applyXanc n (initState n)))))

/-- Probability of measuring input pattern `y` (the source measures only the
`n` input qubits, so the two ancilla settings are summed over); the
denominator accounts for the `2*n+1` unnormalized H gates of the circuit. -/
def probOf (n : ℕ) (v : QState n) (y : Fin n → Bool) : ℚ :=
  (((v (y, false)) ^ 2 + (v (y, true)) ^ 2 : ℤ) : ℚ) / (2 ^ (2 * n + 1) : ℚ)

/-- The measured classical bitstring as the runtime reports it: character `j`
is the value of input qubit `n-1-j` (most significant qubit first). -/
def measuredBits (n : ℕ) (y : Fin n → Bool) : List Char :=
  List.ofFn (fun j : Fin n =>
    if y ⟨n - 1 - j.val, by have := j.isLt; omega⟩ then '1' else '0')

/-- Everything `solve_quantum` produces: the oracle after its single circuit
request, the measurement distribution over input patterns, and the verdict as
a function of the sampled pattern (`'1' in measured_state`). -/
structure QuantumRun (n : ℕ) where
  finalOracle : Oracle
  prob : (Fin n → Bool) → ℚ
  verdict : (Fin n → Bool) → String

/-- `solve_quantum`: requests the oracle circuit exactly once, builds and
simulates the Deutsch–Jozsa circuit, and decides from one sampled measurement
outcome; `none` models a circuit-construction error propagating. -/
def solve_quantum (o : Oracle) : Option (QuantumRun o.n) :=
  (o.get_quantum_circuit).2.map (fun g =>
    { finalOracle := (o.get_quantum_circuit).1
      prob := probOf o.n (djPipeline o.n g)
      verdict := fun y =>
        if '1' ∈ measuredBits o.n y then "balanced" else "constant" })

/-- `format(i, f'0{n}b')` followed by positional access: the `n`-character
binary encoding of `i`, most significant bit first, as a list of bits. -/
def natToBits (n i : ℕ) : List Bool :=
  List.ofFn (fun j : Fin n => i.testBit (n - 1 - j.val))

/-- The loop of `solve_classical` over the remaining inputs, carrying the
oracle and the list of recorded outputs.  A `none` result models an
uncaught exception from the query. -/
def solveClassicalGo (n lim : ℕ) :
    Oracle → List ℕ → List ℕ → Option (String × Oracle)
  | o, _rs, [] => some ("constant", o)
  | o, rs, i :: rest =>
    match o.query_classical (natToBits n i) with
    | (_, none) => none
    | (o2, some out) =>
      let rs2 := rs ++ [out]
      if 1 < rs2.length ∧ rs2.getLast? ≠ rs2.head? then some ("balanced", o2)
      else if lim ≤ o2.call_count then some ("constant", o2)
      else solveClassicalGo n lim o2 rs2 rest

/-- `solve_classical`: enumerates all `2^n` inputs in numeric order with the
worst-case stopping bound `2^(n-1) + 1`. -/
def solve_classical (n : ℕ) (o : Oracle) : Option (String × Oracle) :=
  solveClassicalGo n (2 ^ (n - 1) + 1) o [] (List.range (2 ^ n))

/-- The data `run_race` computes internally: the classical solver run against
one fresh oracle, the quantum solver run against a second fresh oracle of the
same configuration. -/
structure RaceRun (n : ℕ) where
  classical : Option (String × Oracle)
  quantum : Option (QuantumRun n)

/-- The body of `run_race`: two independently constructed oracles of identical
configuration, one consumed by each solver. -/
def race_body (n : ℕ) (t : String) : RaceRun n :=
  { classical := solve_classical n (Oracle.init n t)
    quantum := solve_quantum (Oracle.init n t) }

/-- `run_race`: runs both solvers, prints a scoreboard of the two query
counters, and falls off the end of the function — its value to the caller is
`None`; the computed results are not returned. -/
def run_race (n : ℕ) (t : String) : Option (RaceRun n) :=
  let _ := race_body n t
  none

/-- Alphabet of operations touching an oracle during a run: a classical query,
a circuit retrieval, or `k` applications of an already-retrieved circuit to a
simulator state (which involves the oracle object not at all). -/
inductive OracleOp where
  | queryC : List Bool → OracleOp
  | getCircuit : OracleOp
  | applyCircuit : ℕ → OracleOp
  deriving DecidableEq

/-- Effect of one operation on the oracle object. -/
def opStep (o : Oracle) : OracleOp → Oracle
  | .queryC x => (o.query_classical x).1
  | .getCircuit => (o.get_quantum_circuit).1
  | .applyCircuit _ => o

/-- Whether an operation is a logical oracle query. -/
def opCounts : OracleOp → Bool
  | .applyCircuit _ => false
  | _ => true

/-- Oracle state after a sequence of operations. -/
def runOps (o : Oracle) (ops : List OracleOp) : Oracle := ops.foldl opStep o

/-! ### Product-form states and how each gate acts on them -/

/-- A product-form amplitude vector: an ancilla factor times one factor per
input qubit. -/
def prodState (n : ℕ) (g : Bool → ℤ) (f : Fin n → Bool → ℤ) : QState n :=
  fun p => g p.2 * ∏ i, f i (p.1 i)

/-- The effect of one unnormalized Hadamard on a single-bit factor. -/
def hTwist (φ : Bool → ℤ) : Bool → ℤ :=
  fun b => φ false + (if b then -1 else 1) * φ true

/-- The sign factor `(-1)^a` the ancilla carries after `X` and `H`. -/
def ancSign : Bool → ℤ := fun a => if a then -1 else 1

lemma prodState_congr (n : ℕ) {g1 g2 : Bool → ℤ} {f1 f2 : Fin n → Bool → ℤ}
    (hg : g1 = g2) (hf : f1 = f2) : prodState n g1 f1 = prodState n g2 f2 := by
  rw [hg, hf]

lemma prod_update_split (n : ℕ) (f : Fin n → Bool → ℤ) (x : Fin n → Bool)
    (q : Fin n) (b : Bool) :
    ∏ i, f i (Function.update x q b i)
      = f q b * ∏ i ∈ Finset.univ.erase q, f i (x i) := by
  rw [← Finset.mul_prod_erase Finset.univ (fun i => f i (Function.update x q b i))
      (Finset.mem_univ q), Function.update_same]
  congr 1
  refine Finset.prod_congr rfl (fun i hi => ?_)
  rw [Function.update_noteq (Finset.ne_of_mem_erase hi)]

lemma prod_split (n : ℕ) (f : Fin n → Bool → ℤ) (x : Fin n → Bool) (q : Fin n) :
    ∏ i, f i (x i) = f q (x q) * ∏ i ∈ Finset.univ.erase q, f i (x i) :=
  (Finset.mul_prod_erase Finset.univ (fun i => f i (x i)) (Finset.mem_univ q)).symm

lemma applyXanc_prod (n : ℕ) (g : Bool → ℤ) (f : Fin n → Bool → ℤ) :
    applyXanc n (prodState n g f) = prodState n (fun a => g (!a)) f := by
  funext p
  rfl

lemma applyHanc_prod (n : ℕ) (g : Bool → ℤ) (f : Fin n → Bool → ℤ) :
    applyHanc n (prodState n g f) = prodState n (hTwist g) f := by
  funext p
  simp only [applyHanc, prodState, hTwist]
  ring

lemma applyHin_prod (n : ℕ) (q : Fin n) (g : Bool → ℤ) (f : Fin n → Bool → ℤ) :
    applyHin n q (prodState n g f)
      = prodState n g (Function.update f q (hTwist (f q))) := by
  funext p
  simp only [applyHin, prodState, prod_update_split]
  rw [prod_split n (Function.update f q (hTwist (f q))) p.1 q, Function.update_same]
  have hrest : ∏ i ∈ Finset.univ.erase q, Function.update f q (hTwist (f q)) i (p.1 i)
      = ∏ i ∈ Finset.univ.erase q, f i (p.1 i) := by
    refine Finset.prod_congr rfl (fun i hi => ?_)
    rw [Function.update_noteq (Finset.ne_of_mem_erase hi)]
  rw [hrest]
  simp only [hTwist]
  ring

lemma applyCXanc_prod (n : ℕ) (q : Fin n) (g : Bool → ℤ) (f : Fin n → Bool → ℤ)
    (hg : g true = - g false) :
    applyCXanc n q (prodState n g f)
      = prodState n g (Function.update f q (fun b => (if b then -1 else 1) * f q b)) := by
  funext p
  simp only [applyCXanc, prodState]
  rw [prod_split n (Function.update f q fun b => (if b then -1 else 1) * f q b) p.1 q,
    Function.update_same]
  have hrest : ∏ i ∈ Finset.univ.erase q,
      Function.update f q (fun b => (if b then -1 else 1) * f q b) i (p.1 i)
      = ∏ i ∈ Finset.univ.erase q, f i (p.1 i) := by
    refine Finset.prod_congr rfl (fun i hi => ?_)
    rw [Function.update_noteq (Finset.ne_of_mem_erase hi)]
  rw [hrest, prod_split n f p.1 q]
  rcases p with ⟨x, a⟩
  cases hxq : x q <;> cases a <;> simp [hxq, hg]

lemma foldHin_prod (n : ℕ) (g : Bool → ℤ) :
    ∀ (l : List (Fin n)), l.Nodup → ∀ f : Fin n → Bool → ℤ,
      l.foldl (fun w q => applyHin n q w) (prodState n g f)
        = prodState n g (fun i => if i ∈ l then hTwist (f i) else f i) := by
  intro l
  induction l with
  | nil =>
    intro _ f
    simp only [List.foldl_nil, List.not_mem_nil, if_false]
  | cons q l ih =>
    intro hnd f
    have hql : q ∉ l := (List.nodup_cons.1 hnd).1
    rw [List.foldl_cons, applyHin_prod, ih (List.nodup_cons.1 hnd).2]
    refine prodState_congr n rfl ?_
    funext i b
    by_cases hiq : i = q
    · subst hiq
      simp [hql, Function.update_same]
    · rw [Function.update_noteq hiq]
      by_cases hil : i ∈ l
      · simp [hil, hiq, hTwist, Function.update_noteq hiq]
      · simp [hil, hiq]

lemma hadamardInputs_prod (n : ℕ) (g : Bool → ℤ) (f : Fin n → Bool → ℤ) :
    hadamardInputs n (prodState n g f) = prodState n g (fun i => hTwist (f i)) := by
  unfold hadamardInputs
  rw [foldHin_prod n g (List.finRange n) (List.nodup_finRange n) f]
  refine prodState_congr n rfl ?_
  funext i b
  simp [List.mem_finRange]

lemma initState_prod (n : ℕ) :
    initState n
      = prodState n (fun a => if a then 0 else 1) (fun _ b => if b then 0 else 1) := by
  funext p
  rcases p with ⟨x, a⟩
  simp only [initState, prodState]
  by_cases hx : x = fun _ => false
  · subst hx
    cases a <;> simp
  · have hex : ∃ i, x i ≠ false := by
      by_contra hno
      push_neg at hno
      exact hx (funext fun i => hno i)
    rcases hex with ⟨i, hi⟩
    have hxi : x i = true := by
      cases h : x i
      · exact absurd h hi
      · rfl
    have : (∏ j, (fun (_ : Fin n) (b : Bool) => if b then (0:ℤ) else 1) j (x j)) = 0 :=
      Finset.prod_eq_zero (Finset.mem_univ i) (by simp [hxi])
    simp [hx, this]

/-- State of the register just before the oracle circuit is applied:
uniform magnitudes with the ancilla sign `(-1)^a`. -/
lemma preOracle_prod (n : ℕ) :
    hadamardInputs n (applyHanc n (applyXanc n (initState n)))
      = prodState n ancSign (fun _ _ => 1) := by
  rw [initState_prod, applyXanc_prod, applyHanc_prod, hadamardInputs_prod]
  refine prodState_congr n ?_ ?_
  · funext a
    cases a <;> simp [hTwist, ancSign]
  · funext i b
    cases b <;> simp [hTwist]

/-! ### Closed forms of the simulated circuit -/

/-- The measurement pattern the balanced run concentrates on: input qubits 0
and 1 set, all others clear. -/
def balancedTarget (n : ℕ) : Fin n → Bool := fun i => decide (i.val < 2)

/-- The measurement pattern the constant run concentrates on: all clear. -/
def constTarget (n : ℕ) : Fin n → Bool := fun _ => false

/-- Per-qubit factors of the final state in the balanced run. -/
def balancedProfile (n : ℕ) : Fin n → Bool → ℤ :=
  fun i b => if i.val < 2 then (if b then 2 else 0) else (if b then 0 else 2)

/-- Per-qubit factors of the final state in the constant run. -/
def constProfile (n : ℕ) : Fin n → Bool → ℤ := fun _ b => if b then 0 else 2

lemma ancSign_flip : ancSign true = - ancSign false := by norm_num [ancSign]

lemma gqc_balanced (nn c : ℕ) (h : 2 ≤ nn) :
    Oracle.get_quantum_circuit ⟨nn, "balanced", c⟩
      = (⟨nn, "balanced", c + 1⟩,
         some (fun v => applyCXanc nn ⟨1, h⟩ (applyCXanc nn ⟨0, by omega⟩ v))) := by
  unfold Oracle.get_quantum_circuit
  rw [if_pos rfl, dif_pos h]

lemma gqc_other (nn c : ℕ) (t : String) (ht : ¬ t = "balanced") :
    Oracle.get_quantum_circuit ⟨nn, t, c⟩
      = (⟨nn, t, c + 1⟩, some (fun v => v)) := by
  unfold Oracle.get_quantum_circuit
  rw [if_neg ht]

lemma djPipeline_balanced (nn : ℕ) (h : 2 ≤ nn) :
    djPipeline nn (fun v => applyCXanc nn ⟨1, h⟩ (applyCXanc nn ⟨0, by omega⟩ v))
      = prodState nn ancSign (balancedProfile nn) := by
  unfold djPipeline
  rw [preOracle_prod]
  simp only []
  rw [applyCXanc_prod nn ⟨0, by omega⟩ ancSign _ ancSign_flip,
    applyCXanc_prod nn ⟨1, h⟩ ancSign _ ancSign_flip,
    hadamardInputs_prod]
  refine prodState_congr nn rfl ?_
  funext i b
  rcases i with ⟨iv, hiv⟩
  have h10 : ((⟨1, h⟩ : Fin nn) = ⟨0, by omega⟩) = False := by
    simp [Fin.ext_iff]
  by_cases h0 : iv = 0
  · subst h0
    simp only [Function.update_apply, Fin.ext_iff, hTwist, balancedProfile]
    norm_num
    cases b <;> norm_num
  · by_cases h1 : iv = 1
    · subst h1
      simp only [Function.update_apply, Fin.ext_iff, hTwist, balancedProfile, h10]
      norm_num
      cases b <;> norm_num
    · have hlt : ¬ iv < 2 := by omega
      simp only [Function.update_apply, Fin.ext_iff, hTwist, balancedProfile]
      simp only [h0, h1, hlt, if_false]
      cases b <;> norm_num

lemma djPipeline_id (nn : ℕ) :
    djPipeline nn (fun v => v) = prodState nn ancSign (constProfile nn) := by
  unfold djPipeline
  rw [preOracle_prod]
  simp only []
  rw [hadamardInputs_prod]
  refine prodState_congr nn rfl ?_
  funext i b
  cases b <;> simp [hTwist, constProfile]

lemma probOf_prodState (n : ℕ) (F : Fin n → Bool → ℤ) (T : Fin n → Bool)
    (hF : ∀ i, F i (T i) = 2 ∧ F i (!(T i)) = 0) (y : Fin n → Bool) :
    probOf n (prodState n ancSign F) y = if y = T then 1 else 0 := by
  have hprod : (∏ i, F i (y i)) = if y = T then 2 ^ n else 0 := by
    by_cases hy : y = T
    · subst hy
      rw [if_pos rfl, Finset.prod_congr rfl (fun i _ => (hF i).1)]
      simp [Finset.prod_const, Finset.card_univ]
    · rw [if_neg hy]
      rcases Function.ne_iff.1 hy with ⟨i, hi⟩
      have hyi : y i = !(T i) := by
        cases hT : T i <;> cases hY : y i <;> simp_all
      exact Finset.prod_eq_zero (Finset.mem_univ i) (by rw [hyi]; exact (hF i).2)
  unfold probOf prodState
  rw [hprod]
  by_cases hy : y = T
  · rw [if_pos hy, if_pos hy]
    have hne : ((2 : ℚ) ^ (2 * n + 1)) ≠ 0 := by positivity
    simp only [ancSign, Bool.false_eq_true, if_false, if_true, one_mul, neg_mul, neg_neg]
    rw [div_eq_one_iff_eq hne]
    push_cast
    ring
  · rw [if_neg hy, if_neg hy]
    simp [ancSign]

lemma balancedProfile_indicator (n : ℕ) :
    ∀ i, balancedProfile n i (balancedTarget n i) = 2
      ∧ balancedProfile n i (!(balancedTarget n i)) = 0 := by
  intro i
  by_cases h : i.val < 2 <;> simp [balancedProfile, balancedTarget, h]

lemma constProfile_indicator (n : ℕ) :
    ∀ i, constProfile n i (constTarget n i) = 2
      ∧ constProfile n i (!(constTarget n i)) = 0 := by
  intro i
  simp [constProfile, constTarget]

lemma mem_measuredBits (n : ℕ) (y : Fin n → Bool) :
    '1' ∈ measuredBits n y ↔ ∃ i, y i = true := by
  unfold measuredBits
  rw [List.mem_ofFn]
  constructor
  · rintro ⟨j, hj⟩
    cases h : y ⟨n - 1 - j.val, by have := j.isLt; omega⟩ with
    | true => exact ⟨_, h⟩
    | false => simp [h] at hj
  · rintro ⟨i, hi⟩
    refine ⟨⟨n - 1 - i.val, by have := i.isLt; omega⟩, ?_⟩
    have hgen : ∀ (k : Fin n), k = i → (if y k then '1' else '0') = '1' := by
      intro k hk
      simp [hk, hi]
    exact hgen _ (Fin.ext (show n - 1 - (n - 1 - i.val) = i.val by
      have := i.isLt
      omega))

lemma solve_quantum_eq_balanced (nn c : ℕ) (h : 2 ≤ nn) :
    solve_quantum ⟨nn, "balanced", c⟩
      = some { finalOracle := ⟨nn, "balanced", c + 1⟩
               prob := fun y => if y = balancedTarget nn then 1 else 0
               verdict := fun y =>
                 if '1' ∈ measuredBits nn y then "balanced" else "constant" } := by
  unfold solve_quantum
  rw [gqc_balanced nn c h]
  simp only [Option.map_some']
  congr 1
  congr 1
  · funext y
    rw [djPipeline_balanced nn h,
      probOf_prodState nn (balancedProfile nn) (balancedTarget nn)
        (balancedProfile_indicator nn) y]

lemma solve_quantum_eq_other (nn c : ℕ) (t : String) (ht : ¬ t = "balanced") :
    solve_quantum ⟨nn, t, c⟩
      = some { finalOracle := ⟨nn, t, c + 1⟩
               prob := fun y => if y = constTarget nn then 1 else 0
               verdict := fun y =>
                 if '1' ∈ measuredBits nn y then "balanced" else "constant" } := by
  unfold solve_quantum
  rw [gqc_other nn c t ht]
  simp only [Option.map_some']
  congr 1
  congr 1
  · funext y
    rw [djPipeline_id nn,
      probOf_prodState nn (constProfile nn) (constTarget nn)
        (constProfile_indicator nn) y]

lemma verdict_balancedTarget (nn : ℕ) (h : 1 ≤ nn) :
    ('1' ∈ measuredBits nn (balancedTarget nn)) := by
  rw [mem_measuredBits]
  exact ⟨⟨0, by omega⟩, by simp [balancedTarget]⟩

lemma verdict_constTarget (nn : ℕ) : ¬ ('1' ∈ measuredBits nn (constTarget nn)) := by
  rw [mem_measuredBits]
  rintro ⟨i, hi⟩
  simp [constTarget] at hi

lemma pointmass_sum (nn : ℕ) (T : Fin nn → Bool) :
    (∑ y : Fin nn → Bool, (if y = T then (1 : ℚ) else 0)) = 1 := by
  rw [Finset.sum_ite_eq' Finset.univ T (fun _ => (1 : ℚ))]
  simp

/-- C1: For every n ≥ 2 (written n = m+2) and every kind, the quantum solver
run against a fresh oracle of that configuration performs exactly one oracle
query, its measurement distribution is a point mass (it sums to 1 and a unique
pattern has non-zero probability), and every sample with non-zero probability
yields the verdict equal to the configured kind — so the verdict is correct on
every run. -/
theorem quantum_solver_correct (m : ℕ) (t : String)
    (ht : t = "balanced" ∨ t = "constant") :
    ∃ r : QuantumRun (m + 2),
      solve_quantum (Oracle.init (m + 2) t) = some r ∧
      r.finalOracle.call_count = 1 ∧
      (∀ y, r.prob y ≠ 0 → r.verdict y = t) ∧
      (∑ y : Fin (m + 2) → Bool, r.prob y) = 1 ∧
      (∃! y, r.prob y ≠ 0) := by
  rcases ht with ht | ht <;> subst ht
  · refine ⟨_, solve_quantum_eq_balanced (m + 2) 0 (by omega), rfl, ?_, ?_, ?_⟩
    · intro y hy
      have hyT : y = balancedTarget (m + 2) := by
        by_contra hne
        exact hy (by simp [hne])
      subst hyT
      simp [verdict_balancedTarget (m + 2) (by omega)]
    · exact pointmass_sum (m + 2) (balancedTarget (m + 2))
    · refine ⟨balancedTarget (m + 2), by simp, ?_⟩
      intro y hy
      by_contra hne
      exact hy (by simp [hne])
  · refine ⟨_, solve_quantum_eq_other (m + 2) 0 "constant" (by decide), rfl, ?_, ?_, ?_⟩
    · intro y hy
      have hyT : y = constTarget (m + 2) := by
        by_contra hne
        exact hy (by simp [hne])
      subst hyT
      simp [verdict_constTarget (m + 2)]
    · exact pointmass_sum (m + 2) (constTarget (m + 2))
    · refine ⟨constTarget (m + 2), by simp, ?_⟩
      intro y hy
      by_contra hne
      exact hy (by simp [hne])

/-- Witness for C1 at n = 2, kind balanced. -/
theorem quantum_solver_correct_witness :
    ∃ r : QuantumRun 2,
      solve_quantum (Oracle.init 2 "balanced") = some r ∧
      r.finalOracle.call_count = 1 ∧
      (∀ y, r.prob y ≠ 0 → r.verdict y = "balanced") ∧
      (∑ y : Fin 2 → Bool, r.prob y) = 1 ∧
      (∃! y, r.prob y ≠ 0) :=
  quantum_solver_correct 0 "balanced" (Or.inl rfl)

/-! ### Runs of the classical solver -/

lemma solveClassicalGo_cons (n lim : ℕ) (o : Oracle) (rs : List ℕ) (i : ℕ)
    (rest : List ℕ) (out : ℕ)
    (hq : hidden_function o.type (natToBits n i) = some out) :
    solveClassicalGo n lim o rs (i :: rest)
      = if 1 < (rs ++ [out]).length ∧ (rs ++ [out]).getLast? ≠ (rs ++ [out]).head?
          then some ("balanced", ⟨o.n, o.type, o.call_count + 1⟩)
        else if lim ≤ o.call_count + 1
          then some ("constant", ⟨o.n, o.type, o.call_count + 1⟩)
        else solveClassicalGo n lim ⟨o.n, o.type, o.call_count + 1⟩ (rs ++ [out]) rest := by
  have hqc : o.query_classical (natToBits n i)
      = (⟨o.n, o.type, o.call_count + 1⟩, some out) := by
    unfold Oracle.query_classical
    rw [hq]
  simp only [solveClassicalGo]
  rw [hqc]

lemma go_const_aux (n lim : ℕ) :
    ∀ (l : List ℕ) (o : Oracle) (rs : List ℕ),
      o.type = "constant" →
      (rs.head? = none ∨ rs.head? = some 0) →
      o.call_count < lim → lim ≤ o.call_count + l.length →
      solveClassicalGo n lim o rs l = some ("constant", ⟨o.n, "constant", lim⟩) := by
  intro l
  induction l with
  | nil =>
    intro o rs _ _ hlt hle
    simp only [List.length_nil, Nat.add_zero] at hle
    omega
  | cons i rest ih =>
    intro o rs htype hrs hlt hle
    have hq : hidden_function o.type (natToBits n i) = some 0 := by
      rw [htype]
      unfold hidden_function
      rw [if_neg (by decide)]
    rw [solveClassicalGo_cons n lim o rs i rest 0 hq]
    have hlast : (rs ++ [0]).getLast? = some 0 := List.getLast?_concat rs
    have hhead : (rs ++ [0]).head? = some 0 := by
      rcases rs with _ | ⟨a, tl⟩
      · rfl
      · rcases hrs with h | h
        · exact absurd h (by simp)
        · simpa using h
    rw [if_neg (by simp [hlast, hhead])]
    by_cases hstop : lim ≤ o.call_count + 1
    · rw [if_pos hstop]
      have heq : lim = o.call_count + 1 := by omega
      rw [htype, heq]
    · rw [if_neg hstop]
      have hlen : (i :: rest).length = rest.length + 1 := List.length_cons i rest
      have h1 : (⟨o.n, o.type, o.call_count + 1⟩ : Oracle).call_count < lim := by
        show o.call_count + 1 < lim
        omega
      have h2 : lim ≤ (⟨o.n, o.type, o.call_count + 1⟩ : Oracle).call_count + rest.length := by
        show lim ≤ o.call_count + 1 + rest.length
        rw [hlen] at hle
        omega
      exact ih ⟨o.n, o.type, o.call_count + 1⟩ (rs ++ [0]) htype (Or.inr hhead) h1 h2

lemma go_zeros_aux (n lim : ℕ) :
    ∀ (l l2 : List ℕ) (o : Oracle) (rs : List ℕ),
      (∀ i ∈ l, hidden_function o.type (natToBits n i) = some 0) →
      (rs.head? = none ∨ rs.head? = some 0) →
      o.call_count + l.length < lim →
      solveClassicalGo n lim o rs (l ++ l2)
        = solveClassicalGo n lim ⟨o.n, o.type, o.call_count + l.length⟩
            (rs ++ List.replicate l.length 0) l2 := by
  intro l
  induction l with
  | nil =>
    intro l2 o rs _ _ _
    simp only [List.nil_append, List.length_nil, List.replicate_zero, List.append_nil,
      Nat.add_zero]
  | cons i rest ih =>
    intro l2 o rs hzero hrs hlt
    have hq : hidden_function o.type (natToBits n i) = some 0 :=
      hzero i (List.mem_cons_self i rest)
    rw [List.cons_append, solveClassicalGo_cons n lim o rs i (rest ++ l2) 0 hq]
    have hlast : (rs ++ [0]).getLast? = some 0 := List.getLast?_concat rs
    have hhead : (rs ++ [0]).head? = some 0 := by
      rcases rs with _ | ⟨a, tl⟩
      · rfl
      · rcases hrs with h | h
        · exact absurd h (by simp)
        · simpa using h
    rw [if_neg (by simp [hlast, hhead])]
    have hlen : o.call_count + (i :: rest).length = o.call_count + rest.length + 1 := by
      simp [List.length_cons]
      omega
    have hnost : ¬ lim ≤ o.call_count + 1 := by
      rw [List.length_cons] at hlt
      omega
    rw [if_neg hnost]
    have hlen : (i :: rest).length = rest.length + 1 := List.length_cons i rest
    have h1 : (⟨o.n, o.type, o.call_count + 1⟩ : Oracle).call_count + rest.length < lim := by
      show o.call_count + 1 + rest.length < lim
      rw [hlen] at hlt
      omega
    have hstep := ih l2 ⟨o.n, o.type, o.call_count + 1⟩ (rs ++ [0])
      (fun j hj => hzero j (List.mem_cons_of_mem i hj)) (Or.inr hhead) h1
    rw [hstep]
    have hc : o.call_count + 1 + rest.length = o.call_count + (i :: rest).length := by
      simp [List.length_cons]
      omega
    have hl : (rs ++ [0]) ++ List.replicate rest.length 0
        = rs ++ List.replicate (i :: rest).length 0 := by
      simp [List.append_assoc, List.length_cons, List.replicate_succ]
    rw [hc, hl]

lemma hidden_balanced_bits (m i : ℕ) :
    hidden_function "balanced" (natToBits (m + 2) i)
      = some (Nat.xor (if i.testBit (m + 1) then 1 else 0)
          (if i.testBit m then 1 else 0)) := by
  unfold hidden_function
  rw [if_pos rfl]
  unfold natToBits
  rw [List.ofFn_succ, List.ofFn_succ]
  simp only [Fin.val_zero, Fin.val_succ, Nat.sub_zero]
  rfl

lemma hidden_balanced_small (m i : ℕ) (hi : i < 2 ^ m) :
    hidden_function "balanced" (natToBits (m + 2) i) = some 0 := by
  rw [hidden_balanced_bits]
  have hb1 : i.testBit (m + 1) = false :=
    Nat.testBit_lt_two_pow (lt_trans hi (by
      have : (2:ℕ) ^ (m + 1) = 2 * 2 ^ m := by ring
      have h1 : (1:ℕ) ≤ 2 ^ m := Nat.one_le_two_pow
      omega))
  have hb0 : i.testBit m = false := Nat.testBit_lt_two_pow hi
  rw [hb1, hb0]
  rfl

lemma hidden_balanced_first_one (m : ℕ) :
    hidden_function "balanced" (natToBits (m + 2) (2 ^ m)) = some 1 := by
  rw [hidden_balanced_bits]
  have hb1 : (2 ^ m : ℕ).testBit (m + 1) = false :=
    Nat.testBit_lt_two_pow (by
      have : (2:ℕ) ^ (m + 1) = 2 * 2 ^ m := by ring
      have h1 : (1:ℕ) ≤ 2 ^ m := Nat.one_le_two_pow
      omega)
  have hb0 : (2 ^ m : ℕ).testBit m = true := Nat.testBit_two_pow_self
  rw [hb1, hb0]
  rfl

lemma solve_classical_constant_eq (m : ℕ) :
    solve_classical (m + 2) (Oracle.init (m + 2) "constant")
      = some ("constant", ⟨m + 2, "constant", 2 ^ (m + 1) + 1⟩) := by
  unfold solve_classical Oracle.init
  have h1 : (1:ℕ) ≤ 2 ^ (m + 1) := Nat.one_le_two_pow
  have h2 : (2:ℕ) ^ (m + 2) = 2 * 2 ^ (m + 1) := by ring
  have := go_const_aux (m + 2) (2 ^ (m + 2 - 1) + 1) (List.range (2 ^ (m + 2)))
    ⟨m + 2, "constant", 0⟩ [] rfl (Or.inl rfl)
    (by show 0 < 2 ^ (m + 2 - 1) + 1; positivity)
    (by
      show 2 ^ (m + 2 - 1) + 1 ≤ 0 + (List.range (2 ^ (m + 2))).length
      rw [List.length_range]
      show 2 ^ (m + 1) + 1 ≤ 0 + 2 ^ (m + 2)
      omega)
  exact this

lemma range_pow_split (m : ℕ) :
    ∃ tail, List.range (2 ^ (m + 2)) = List.range (2 ^ m) ++ (2 ^ m :: tail) := by
  have h1 : (1:ℕ) ≤ 2 ^ m := Nat.one_le_two_pow
  have h4 : (2:ℕ) ^ (m + 2) = 4 * 2 ^ m := by ring
  obtain ⟨k, hk⟩ : ∃ k, 2 ^ (m + 2) = 2 ^ m + (k + 1) :=
    ⟨2 ^ (m + 2) - 2 ^ m - 1, by omega⟩
  refine ⟨List.map (2 ^ m + ·) (List.map Nat.succ (List.range k)), ?_⟩
  rw [hk, List.range_add, List.range_succ_eq_map]
  simp

lemma solve_classical_balanced_eq (m : ℕ) :
    solve_classical (m + 2) (Oracle.init (m + 2) "balanced")
      = some ("balanced", ⟨m + 2, "balanced", 2 ^ m + 1⟩) := by
  have h1 : (1:ℕ) ≤ 2 ^ m := Nat.one_le_two_pow
  have h2 : (2:ℕ) ^ (m + 1) = 2 * 2 ^ m := by ring
  obtain ⟨tail, htail⟩ := range_pow_split m
  unfold solve_classical Oracle.init
  rw [htail]
  have hzeros := go_zeros_aux (m + 2) (2 ^ (m + 2 - 1) + 1) (List.range (2 ^ m))
    (2 ^ m :: tail) ⟨m + 2, "balanced", 0⟩ []
    (fun i hi => hidden_balanced_small m i (List.mem_range.1 hi))
    (Or.inl rfl)
    (by
      show 0 + (List.range (2 ^ m)).length < 2 ^ (m + 2 - 1) + 1
      rw [List.length_range]
      show 0 + 2 ^ m < 2 ^ (m + 1) + 1
      omega)
  rw [hzeros]
  simp only [List.length_range, List.nil_append, Nat.zero_add]
  rw [solveClassicalGo_cons (m + 2) (2 ^ (m + 2 - 1) + 1) ⟨m + 2, "balanced", 2 ^ m⟩
    (List.replicate (2 ^ m) 0) (2 ^ m) tail 1 (hidden_balanced_first_one m)]
  have hcond : 1 < (List.replicate (2 ^ m) 0 ++ [1]).length ∧
      (List.replicate (2 ^ m) 0 ++ [1]).getLast?
        ≠ (List.replicate (2 ^ m) 0 ++ [1]).head? := by
    constructor
    · simp only [List.length_append, List.length_replicate, List.length_cons,
        List.length_nil]
      omega
    · obtain ⟨k, hk⟩ : ∃ k, 2 ^ m = k + 1 := ⟨2 ^ m - 1, by omega⟩
      rw [List.getLast?_concat, hk, List.replicate_succ, List.cons_append]
      simp
  rw [if_pos hcond]

lemma two_pow_succ_bound (m : ℕ) : 2 ^ m + 1 ≤ 2 ^ (m + 1) + 1 := by
  have h2 : (2:ℕ) ^ (m + 1) = 2 * 2 ^ m := by ring
  have h1 : (1:ℕ) ≤ 2 ^ m := Nat.one_le_two_pow
  omega

/-- C2: For every n ≥ 2 (written n = m+2) with kind `constant`, the classical
solver returns verdict `constant` and the oracle's final call counter equals
exactly `2^(n-1) + 1`. -/
theorem classical_constant_queries (m : ℕ) :
    solve_classical (m + 2) (Oracle.init (m + 2) "constant")
      = some ("constant", ⟨m + 2, "constant", 2 ^ (m + 2 - 1) + 1⟩) :=
  solve_classical_constant_eq m

/-- C10: For every n ≥ 2 (written n = m+2) with kind `balanced`, the classical
solver stops with verdict `balanced` after exactly `2^(n-2) + 1` queries: the
inputs are enumerated in numeric order, the hidden function is the XOR of the
two most significant characters of the binary encoding, the first `2^(n-2)`
inputs evaluate to 0 and input number `2^(n-2)` is the first evaluating to 1. -/
theorem classical_balanced_exact_queries (m : ℕ) :
    solve_classical (m + 2) (Oracle.init (m + 2) "balanced")
      = some ("balanced", ⟨m + 2, "balanced", 2 ^ (m + 2 - 2) + 1⟩) :=
  solve_classical_balanced_eq m

/-- C3: For every n ≥ 2 (written n = m+2) with kind `balanced`, the classical
solver returns verdict `balanced`; for either kind the final call counter is at
most `2^(n-1) + 1` (the hard upper bound on classical queries). -/
theorem classical_verdict_and_bound (m : ℕ) (t : String)
    (ht : t = "balanced" ∨ t = "constant") :
    ∃ v o, solve_classical (m + 2) (Oracle.init (m + 2) t) = some (v, o) ∧
      v = t ∧ o.call_count ≤ 2 ^ (m + 2 - 1) + 1 := by
  rcases ht with ht | ht <;> subst ht
  · refine ⟨"balanced", _, solve_classical_balanced_eq m, rfl, ?_⟩
    exact two_pow_succ_bound m
  · exact ⟨"constant", _, solve_classical_constant_eq m, rfl, le_refl _⟩

/-- Witness for C3 at n = 2, kind balanced. -/
theorem classical_verdict_and_bound_witness :
    ∃ v o, solve_classical 2 (Oracle.init 2 "balanced") = some (v, o) ∧
      v = "balanced" ∧ o.call_count ≤ 2 ^ (2 - 1) + 1 :=
  classical_verdict_and_bound 0 "balanced" (Or.inl rfl)

lemma hidden_ofFn_balanced (m : ℕ) (x : Fin (m + 2) → Bool) :
    hidden_function "balanced" (List.ofFn x)
      = some (Nat.xor (if x 0 then 1 else 0) (if x 1 then 1 else 0)) := by
  unfold hidden_function
  rw [if_pos rfl]
  simp only [List.ofFn_succ]
  have e1 : (0 : Fin (m + 1)).succ = (1 : Fin (m + 2)) := by
    apply Fin.ext
    simp [Fin.val_succ, Fin.val_zero, Fin.val_one]
  rw [e1]

/-- C4: The transform returned by `get_quantum_circuit` permutes the basis
labels by flipping the ancilla bit of a label exactly when a classical query
on that label's input bits (listed in qubit order) returns 1 — for a balanced
oracle when input bit 0 XOR input bit 1 is set, for a constant oracle never
(identity).  The classical query interface and the quantum transform thus
realize the same hidden function. -/
theorem transform_matches_classical (m c : ℕ) (t : String)
    (ht : t = "balanced" ∨ t = "constant") :
    ∃ g, ((⟨m + 2, t, c⟩ : Oracle).get_quantum_circuit).2 = some g ∧
      ∀ (v : QState (m + 2)) (x : Fin (m + 2) → Bool) (a : Bool),
        g v (x, a)
          = v (x, xor a ((((⟨m + 2, t, c⟩ : Oracle).query_classical
              (List.ofFn x)).2.getD 0) == 1)) := by
  rcases ht with ht | ht <;> subst ht
  · refine ⟨_, by rw [gqc_balanced (m + 2) c (by omega)], ?_⟩
    intro v x a
    show v (x, xor (xor a (x ⟨1, by omega⟩)) (x ⟨0, by omega⟩))
        = v (x, xor a ((((⟨m + 2, "balanced", c⟩ : Oracle).query_classical
            (List.ofFn x)).2.getD 0) == 1))
    have hq : ((⟨m + 2, "balanced", c⟩ : Oracle).query_classical (List.ofFn x)).2
        = some (Nat.xor (if x 0 then 1 else 0) (if x 1 then 1 else 0)) :=
      hidden_ofFn_balanced m x
    rw [hq]
    have e0 : (0 : Fin (m + 2)) = ⟨0, by omega⟩ := Fin.ext (by simp [Fin.val_zero])
    have e1 : (1 : Fin (m + 2)) = ⟨1, by omega⟩ := Fin.ext (by simp [Fin.val_one])
    rw [Option.getD_some, e0, e1]
    cases hx0 : x ⟨0, by omega⟩ <;> cases hx1 : x ⟨1, by omega⟩ <;>
      cases a <;> simp [hx0, hx1] <;> rfl
  · have hne : ¬ ("constant" : String) = "balanced" := by decide
    refine ⟨_, by rw [gqc_other (m + 2) c "constant" hne], ?_⟩
    intro v x a
    show v (x, a)
        = v (x, xor a ((((⟨m + 2, "constant", c⟩ : Oracle).query_classical
            (List.ofFn x)).2.getD 0) == 1))
    have hq : ((⟨m + 2, "constant", c⟩ : Oracle).query_classical (List.ofFn x)).2
        = some 0 := by
      show hidden_function "constant" (List.ofFn x) = some 0
      unfold hidden_function
      rw [if_neg hne]
    rw [hq, Option.getD_some]
    simp

/-- Witness for C4 at n = 2, kind balanced, counter 0. -/
theorem transform_matches_classical_witness :
    ∃ g, ((⟨2, "balanced", 0⟩ : Oracle).get_quantum_circuit).2 = some g ∧
      ∀ (v : QState 2) (x : Fin 2 → Bool) (a : Bool),
        g v (x, a)
          = v (x, xor a ((((⟨2, "balanced", 0⟩ : Oracle).query_classical
              (List.ofFn x)).2.getD 0) == 1)) :=
  transform_matches_classical 0 0 "balanced" (Or.inl rfl)

/-- C5 counterexample: `run_race` hands no `DecisionResult` back to its caller —
at n = 4 with a balanced oracle (either configuration behaves the same) its
return value is `None`, so the claim that both solvers' results are returned
fails. -/
theorem run_race_returns_none_cex :
    ¬ ∃ r : RaceRun 4, run_race 4 "balanced" = some r := by
  rintro ⟨r, hr⟩
  rw [show run_race 4 "balanced" = none from rfl] at hr
  exact Option.noConfusion hr

/-- C5 amended: `race_body` (the computation inside `run_race`) runs the two
solvers against two independently constructed oracles of identical
configuration and both verdicts equal the configured kind, with the classical
count within the worst-case bound and the quantum count exactly 1 — but
`run_race` returns `None` to its caller (it only prints the two counters) and
performs no verdict comparison. -/
theorem race_internal_correct_but_unreturned (m : ℕ) (t : String)
    (ht : t = "balanced" ∨ t = "constant") :
    (∃ o : Oracle, (race_body (m + 2) t).classical = some (t, o) ∧
      o.call_count ≤ 2 ^ (m + 2 - 1) + 1) ∧
    (∃ r : QuantumRun (m + 2), (race_body (m + 2) t).quantum = some r ∧
      r.finalOracle.call_count = 1 ∧
      ∀ y, r.prob y ≠ 0 → r.verdict y = t) ∧
    run_race (m + 2) t = none := by
  refine ⟨?_, ?_, rfl⟩
  · rcases ht with ht | ht <;> subst ht
    · exact ⟨_, solve_classical_balanced_eq m, two_pow_succ_bound m⟩
    · exact ⟨_, solve_classical_constant_eq m, le_refl _⟩
  · rcases ht with ht | ht <;> subst ht
    · refine ⟨_, solve_quantum_eq_balanced (m + 2) 0 (by omega), rfl, ?_⟩
      intro y hy
      have hyT : y = balancedTarget (m + 2) := by
        by_contra hne
        exact hy (by simp [hne])
      subst hyT
      simp [verdict_balancedTarget (m + 2) (by omega)]
    · refine ⟨_, solve_quantum_eq_other (m + 2) 0 "constant" (by decide), rfl, ?_⟩
      intro y hy
      have hyT : y = constTarget (m + 2) := by
        by_contra hne
        exact hy (by simp [hne])
      subst hyT
      simp [verdict_constTarget (m + 2)]

/-- Witness for C5's amended theorem at n = 4, kind balanced (the spec's
concrete scenario A). -/
theorem race_internal_correct_but_unreturned_witness :
    (∃ o : Oracle, (race_body 4 "balanced").classical = some ("balanced", o) ∧
      o.call_count ≤ 2 ^ (4 - 1) + 1) ∧
    (∃ r : QuantumRun 4, (race_body 4 "balanced").quantum = some r ∧
      r.finalOracle.call_count = 1 ∧
      ∀ y, r.prob y ≠ 0 → r.verdict y = "balanced") ∧
    run_race 4 "balanced" = none :=
  race_internal_correct_but_unreturned 2 "balanced" (Or.inl rfl)

/-- C6 counterexample: construction does not fail for n = 0, n = 1 or an
unrecognized kind string — `Oracle.__init__` performs no validation, so no
`InvalidConfigError` is raised; the constructed objects are fully operational
(a circuit request even succeeds and counts). -/
theorem oracle_init_no_validation_cex :
    Oracle.init 0 "balanced" = ⟨0, "balanced", 0⟩ ∧
    Oracle.init 1 "balanced" = ⟨1, "balanced", 0⟩ ∧
    Oracle.init 3 "neither" = ⟨3, "neither", 0⟩ ∧
    ((Oracle.init 0 "balanced").get_quantum_circuit).1.call_count = 1 ∧
    ((Oracle.init 3 "neither").query_classical [true]).2 = some 0 :=
  ⟨rfl, rfl, rfl, rfl, rfl⟩

/-- C6 amended: constructing an oracle always succeeds, for every n (including
0 and 1) and every kind string; the construction just stores the configuration
with a zero counter and the result is operational. -/
theorem oracle_init_always_succeeds (n : ℕ) (t : String) :
    (Oracle.init n t).n = n ∧ (Oracle.init n t).type = t ∧
    (Oracle.init n t).call_count = 0 ∧
    ((Oracle.init n t).get_quantum_circuit).1.call_count = 1 :=
  ⟨rfl, rfl, rfl, rfl⟩

/-- C8 counterexample: a query whose input length (2) differs from the
oracle's n (3) does not fail with `InvalidInputError`: it returns the hidden
function's value on the first two bits and increments the counter. -/
theorem query_classical_no_length_check_cex :
    ((Oracle.init 3 "balanced").query_classical [false, true]).2 = some 1 ∧
    ((Oracle.init 3 "balanced").query_classical [false, true]).1.call_count = 1 := by
  constructor
  · show hidden_function "balanced" [false, true] = some 1
    rfl
  · rfl

/-- C8 amended: `query_classical` performs no length validation: for every
oracle and every input whatsoever (regardless of whether its length equals the
oracle's n) the call increments the counter by exactly 1; a balanced oracle
returns a value of the hidden function whenever the input has at least two
bits and raises an `IndexError` (modelled `none`) on a shorter input, and an
oracle of any other kind returns 0 on every input. -/
theorem query_classical_counts_and_returns (o : Oracle) (x : List Bool) :
    (o.query_classical x).1.call_count = o.call_count + 1 ∧
    (o.type = "balanced" → 2 ≤ x.length → ∃ r, (o.query_classical x).2 = some r) ∧
    (o.type = "balanced" → x.length < 2 → (o.query_classical x).2 = none) ∧
    (¬ o.type = "balanced" → (o.query_classical x).2 = some 0) := by
  refine ⟨rfl, ?_, ?_, ?_⟩
  · intro ht hx
    show ∃ r, hidden_function o.type x = some r
    rw [ht]
    unfold hidden_function
    rw [if_pos rfl]
    rcases x with _ | ⟨a, _ | ⟨b, rest⟩⟩
    · simp at hx
    · simp at hx
    · exact ⟨_, rfl⟩
  · intro ht hx
    show hidden_function o.type x = none
    rw [ht]
    unfold hidden_function
    rw [if_pos rfl]
    rcases x with _ | ⟨a, _ | ⟨b, rest⟩⟩
    · rfl
    · rfl
    · simp only [List.length_cons] at hx
      omega
  · intro ht
    show hidden_function o.type x = some 0
    unfold hidden_function
    rw [if_neg ht]

/-- Witness for C8's amended theorem: a balanced oracle with n = 2 queried on
a 1-bit input — the call is still counted and the query yields the modelled
`IndexError`, not an `InvalidInputError`. -/
theorem query_classical_counts_and_returns_witness :
    ((Oracle.init 2 "balanced").query_classical [true]).1.call_count
        = (Oracle.init 2 "balanced").call_count + 1 ∧
    ((Oracle.init 2 "balanced").type = "balanced" →
      2 ≤ ([true] : List Bool).length →
      ∃ r, ((Oracle.init 2 "balanced").query_classical [true]).2 = some r) ∧
    ((Oracle.init 2 "balanced").type = "balanced" →
      ([true] : List Bool).length < 2 →
      ((Oracle.init 2 "balanced").query_classical [true]).2 = none) ∧
    (¬ (Oracle.init 2 "balanced").type = "balanced" →
      ((Oracle.init 2 "balanced").query_classical [true]).2 = some 0) :=
  query_classical_counts_and_returns (Oracle.init 2 "balanced") [true]

lemma runOps_count (o : Oracle) (ops : List OracleOp) :
    (runOps o ops).call_count = o.call_count + ops.countP (fun op => opCounts op) := by
  induction ops generalizing o with
  | nil => simp [runOps]
  | cons op l ih =>
    have hstep : runOps o (op :: l) = runOps (opStep o op) l := rfl
    rw [hstep, ih (opStep o op), List.countP_cons]
    cases op with
    | queryC x =>
      show o.call_count + 1 + _ = _
      simp [opCounts]
      omega
    | getCircuit =>
      show o.call_count + 1 + _ = _
      simp [opCounts]
      omega
    | applyCircuit k =>
      show o.call_count + _ = _
      simp [opCounts]

/-- C9: Each classical query and each circuit retrieval increments the
counter by exactly 1, applying an already-retrieved circuit any number of
times leaves the oracle untouched, the counter after any sequence of
operations is the initial counter plus the number of query/retrieval
operations, and the counter is monotonically non-decreasing. -/
theorem call_count_invariant (o : Oracle) (x : List Bool) (k : ℕ)
    (ops : List OracleOp) :
    (o.query_classical x).1.call_count = o.call_count + 1 ∧
    (o.get_quantum_circuit).1.call_count = o.call_count + 1 ∧
    opStep o (OracleOp.applyCircuit k) = o ∧
    (runOps o ops).call_count
      = o.call_count + ops.countP (fun op => opCounts op) ∧
    o.call_count ≤ (runOps o ops).call_count := by
  refine ⟨rfl, rfl, rfl, runOps_count o ops, ?_⟩
  rw [runOps_count o ops]
  omega
